import Mathlib

/-! Command-line parsing core of sycl-bench (`include/command_line.h`).

A shallow embedding of the tokenizer (`CommandLine::CommandLine`), the typed
decoder (`detail::simple_cast`, `detail::parseCommaDelimitedList`,
`detail::parseSyclArray`, `cast`) and the accessors (`isArgSet`, `isFlagSet`,
`get`, `getOrDefault`), followed by theorems about them.

Modelling conventions:

* a `std::string` is a `List Char`, one `Char` per C++ `char`;
* `std::size_t` is a natural number below `2 ^ 64`;
* a run of the program ends in a value, in a thrown exception, or in an
  out-of-bounds `operator[]` read of a `std::vector` (`Outcome.ub`);
* `std::unordered_map` / `std::unordered_set` are association lists / lists
  that are only observed through `find`.
-/

namespace SyclBench

/-- A `std::string`: the sequence of its `char`s. -/
abbrev Str := List Char

/-- The exceptions the header throws or catches, with their `what()` text. -/
inductive Exn where
  | invalid_argument (what : Str)
  | out_of_range (what : Str)
  deriving DecidableEq, Repr

/-- How evaluating an expression of the program ends. -/
inductive Outcome (α : Type) where
  | ok (a : α)
  | throws (e : Exn)
  | ub
  deriving DecidableEq, Repr

/-- Sequencing: a throw or an out-of-bounds read ends the evaluation. -/
def Outcome.bind {α β : Type} : Outcome α → (α → Outcome β) → Outcome β
  | .ok a, f => f a
  | .throws e, _ => .throws e
  | .ub, _ => .ub

/-- A `std::size_t` object: a value, or the never-written local `T result;`
that `simple_cast` returns when stream extraction did not store anything. -/
inductive SizeVal where
  | val (n : Nat)
  | indeterminate
  deriving DecidableEq, Repr

/-- A `sycl::range<3>` or `sycl::id<3>`: three `size_t` components. -/
structure SyclArray where
  c0 : SizeVal
  c1 : SizeVal
  c2 : SizeVal
  deriving DecidableEq, Repr

/-- Largest `std::size_t` (64-bit). -/
def SIZE_MAX : Nat := 2 ^ 64 - 1

/-! ## Stream primitives -/

/-- One call `std::getline(stream, line, delim)` on a stream whose unread
characters are the first argument: `none` when no character could be
extracted (the stream then tests false), otherwise the line and the unread
rest. The delimiter is extracted and dropped; reaching the end of the input
after at least one character is a success. -/
def getline : Str → Char → Option (Str × Str)
  | [], _ => none
  | c :: cs, delim =>
    if c = delim then some ([], cs)
    else
      match getline cs delim with
      | none => some ([c], [])
      | some (line, rest) => some (c :: line, rest)

/-- The classic-locale `isspace`, which the `>>` sentry skips. -/
def isspace (c : Char) : Bool :=
  c = ' ' || c = '\t' || c = '\n' || c = '\x0b' || c = '\x0c' || c = '\r'

/-- Decimal digit test. -/
def isdigit (c : Char) : Bool := '0' ≤ c && c ≤ '9'

/-- Value of a decimal digit character. -/
def digitVal (c : Char) : Nat := c.toNat - '0'.toNat

/-- Value of a run of decimal digits, most significant first. -/
def digitsVal (ds : Str) : Nat := ds.foldl (fun acc d => 10 * acc + digitVal d) 0

/-- The extraction `sstr >> result` for `std::size_t result;` (decimal base):
skip leading white space; at end of input the sentry fails and `result` is
never written; otherwise read an optional sign and the digits that follow,
storing `0` when there is no digit, `SIZE_MAX` on overflow, and the value
(negated modulo `2 ^ 64` after a minus sign) otherwise. Characters after the
digits stay unread. -/
def extract_size_t (s : Str) : SizeVal :=
  match s.dropWhile isspace with
  | [] => .indeterminate
  | c :: cs =>
    let negative := c = '-'
    let body := if c = '-' ∨ c = '+' then cs else c :: cs
    let ds := body.takeWhile isdigit
    if ds = [] then .val 0
    else if SIZE_MAX < digitsVal ds then .val SIZE_MAX
    else if negative then .val ((2 ^ 64 - digitsVal ds) % 2 ^ 64)
    else .val (digitsVal ds)

/-! ## `namespace detail` -/

/-- The `std::string` branch of `detail::simple_cast`:
`std::getline(sstr, result, '\0')`, with `result` left empty on failure. -/
def simple_cast_string (s : Str) : Str :=
  match getline s '\x00' with
  | none => []
  | some (result, _) => result

/-- The general branch of `detail::simple_cast` at `T = std::size_t`. -/
def simple_cast_size_t (s : Str) : SizeVal := extract_size_t s

/-- The loop `while(std::getline(istr, current, ',')) result.push_back(...)`
of `detail::parseCommaDelimitedList`, with `fuel` bounding the iterations. -/
def parseLoop {α : Type} (conv : Str → α) : Nat → Str → List α
  | 0, _ => []
  | fuel + 1, istr =>
    match getline istr ',' with
    | none => []
    | some (current, rest) => conv current :: parseLoop conv fuel rest

/-- The template `detail::parseCommaDelimitedList<T>`, with `simple_cast<T>`
passed as `conv`. Every iteration extracts at least one character, so
`s.length + 1` iterations always reach the failing `getline`. -/
def parseCommaDelimitedList {α : Type} (conv : Str → α) (s : Str) : List α :=
  parseLoop conv (s.length + 1) s

/-- The unchecked `elements[i]` of a `std::vector`. -/
def index {α : Type} (elements : List α) (i : Nat) : Outcome α :=
  match elements.get? i with
  | some x => .ok x
  | none => .ub

/-- Text of the exception thrown by `parseSyclArray`. -/
def invalidSyclMsg (s : Str) : Str := "Invalid sycl range/id: ".toList ++ s

/-- The function `detail::parseSyclArray`: the branches test `s.size()`, the
number of characters of the raw string. -/
def parseSyclArray (s : Str) (defaultValue : Nat) : Outcome SyclArray :=
  let elements := parseCommaDelimitedList simple_cast_size_t s
  if s.length > 3 then
    .throws (.invalid_argument (invalidSyclMsg s))
  else if s.length = 3 then
    (index elements 0).bind fun e0 =>
    (index elements 1).bind fun e1 =>
    (index elements 2).bind fun e2 =>
    .ok ⟨e0, e1, e2⟩
  else if s.length = 2 then
    (index elements 0).bind fun e0 =>
    (index elements 1).bind fun e1 =>
    .ok ⟨e0, e1, .val defaultValue⟩
  else if s.length = 1 then
    (index elements 0).bind fun e0 =>
    .ok ⟨e0, .val defaultValue, .val defaultValue⟩
  else
    .throws (.invalid_argument (invalidSyclMsg s))

/-! ## `cast<T>` -/

/-- The target types `cast`, `get` and `getOrDefault` are instantiated at. -/
inductive Ty where
  | string
  | size_t
  | range3
  | id3
  deriving DecidableEq, Repr

/-- The C++ type denoted by a tag. -/
def Ty.denote : Ty → Type
  | .string => Str
  | .size_t => SizeVal
  | .range3 => SyclArray
  | .id3 => SyclArray

instance (T : Ty) : DecidableEq T.denote :=
  match T with
  | .string => inferInstanceAs (DecidableEq Str)
  | .size_t => inferInstanceAs (DecidableEq SizeVal)
  | .range3 => inferInstanceAs (DecidableEq SyclArray)
  | .id3 => inferInstanceAs (DecidableEq SyclArray)

/-- The template `cast<T>`: the primary template calls `detail::simple_cast`,
the two specialisations call `detail::parseSyclArray` with defaults 1 and 0. -/
def cast : (T : Ty) → Str → Outcome T.denote
  | .string, s => .ok (simple_cast_string s)
  | .size_t, s => .ok (simple_cast_size_t s)
  | .range3, s => parseSyclArray s 1
  | .id3, s => parseSyclArray s 0

/-! ## `class CommandLine` -/

/-- The call `std::string::find("=")`-style search for one character:
position of its first occurrence, `none` for `npos`. -/
def find (arg : Str) (c : Char) : Option Nat :=
  match arg with
  | [] => none
  | x :: xs => if x = c then some 0 else (find xs c).map (· + 1)

/-- Lookup in the `std::unordered_map`: `args.find(key)`, `none` for `end()`. -/
def mapFind (args : List (Str × Str)) (key : Str) : Option Str :=
  match args with
  | [] => none
  | (k, v) :: rest => if k = key then some v else mapFind rest key

/-- The assignment `args[key] = val`: overwrite the entry or add one. -/
def mapAssign (args : List (Str × Str)) (key val : Str) : List (Str × Str) :=
  match args with
  | [] => [(key, val)]
  | (k, v) :: rest => if k = key then (k, val) :: rest else (k, v) :: mapAssign rest key val

/-- The call `flags.insert(arg)` on the `std::unordered_set`. -/
def setInsert (flags : List Str) (arg : Str) : List Str :=
  if arg ∈ flags then flags else flags ++ [arg]

/-- The private members of `CommandLine`. -/
structure CommandLine where
  args : List (Str × Str)
  flags : List Str
  deriving DecidableEq, Repr

/-- Text of the exception thrown by the constructor on a repeated key. -/
def duplicateMsg (argName : Str) : Str :=
  "Encountered command line argument several times: ".toList ++ argName

/-- Text of the exception thrown by `get` on an absent key. -/
def missingMsg (arg : Str) : Str :=
  "Command line argument was requested but missing: ".toList ++ arg

/-- One iteration of the constructor's loop on the token `arg`. -/
def CommandLine.step (self : CommandLine) (arg : Str) : Outcome CommandLine :=
  match find arg '=' with
  | some pos =>
    let argName := arg.take pos
    let argVal := arg.drop (pos + 1)
    if (mapFind self.args argName).isSome then
      .throws (.invalid_argument (duplicateMsg argName))
    else
      .ok { self with args := mapAssign self.args argName argVal }
  | none => .ok { self with flags := setInsert self.flags arg }

/-- The constructor's loop over the remaining tokens. -/
def CommandLine.loop : List Str → CommandLine → Outcome CommandLine
  | [], self => .ok self
  | arg :: rest, self => (self.step arg).bind (CommandLine.loop rest)

/-- The constructor `CommandLine(int argc, char** argv)`, on the `argc`
tokens of `argv`, starting from empty members. A token is the text of one
NUL-terminated `argv[i]`, so a real token has no NUL character inside. -/
def CommandLine.ctor (argv : List Str) : Outcome CommandLine :=
  CommandLine.loop argv { args := [], flags := [] }

/-- The member `isArgSet`. -/
def CommandLine.isArgSet (self : CommandLine) (arg : Str) : Bool :=
  (mapFind self.args arg).isSome

/-- The member `isFlagSet`. -/
def CommandLine.isFlagSet (self : CommandLine) (flag : Str) : Bool :=
  decide (flag ∈ self.flags)

/-- The call `args.at(arg)`, which throws `std::out_of_range` on a miss. -/
def mapAt (args : List (Str × Str)) (arg : Str) : Outcome Str :=
  match mapFind args arg with
  | some v => .ok v
  | none => .throws (.out_of_range "unordered_map::at".toList)

/-- The member `getOrDefault<T>`. -/
def CommandLine.getOrDefault (self : CommandLine) (T : Ty) (arg : Str)
    (defaultVal : T.denote) : Outcome T.denote :=
  if self.isArgSet arg then (mapAt self.args arg).bind (cast T)
  else .ok defaultVal

/-- The member `get<T>`: the `try` block covers both `args.at(arg)` and the
`cast`, and the handler turns any `std::out_of_range` into
`std::invalid_argument`. -/
def CommandLine.get (self : CommandLine) (T : Ty) (arg : Str) : Outcome T.denote :=
  match (mapAt self.args arg).bind (cast T) with
  | .throws (.out_of_range _) => .throws (.invalid_argument (missingMsg arg))
  | r => r

/-! ## The error kinds of the specification -/

/-- Error `DuplicateArgument(name)`. -/
def DuplicateArgument (name : Str) : Exn := .invalid_argument (duplicateMsg name)

/-- Error `MissingArgument(name)`. -/
def MissingArgument (name : Str) : Exn := .invalid_argument (missingMsg name)

/-- Error `InvalidVectorLiteral(rawValue)`. -/
def InvalidVectorLiteral (rawValue : Str) : Exn := .invalid_argument (invalidSyclMsg rawValue)

/-! ## Vocabulary of the statements -/

/-- The key and value the constructor computes for a token: `none` for a
token without `=`, otherwise `arg.substr(0, pos)` and `arg.substr(pos + 1)`. -/
def keyVal (arg : Str) : Option (Str × Str) :=
  (find arg '=').map fun pos => (arg.take pos, arg.drop (pos + 1))

/-- The keyed-argument names of a token sequence, in token order. -/
def keyNames (argv : List Str) : List Str := (argv.filterMap keyVal).map Prod.fst

/-- The tokens without `=`, in token order. -/
def bareTokens (argv : List Str) : List Str := argv.filter fun arg => (find arg '=').isNone

/-- The decimal text of a natural number. -/
def decimal (n : Nat) : Str := Nat.toDigits 10 n

/-! ## Lemmas on the string primitives -/

theorem find_none_iff (s : Str) (c : Char) : find s c = none ↔ c ∉ s := by
  induction s with
  | nil => simp [find]
  | cons x xs ih =>
    by_cases hx : x = c
    · simp [find, hx]
    · have hx2 : ¬ c = x := fun h => hx h.symm
      simp [find, hx, hx2, ih]

theorem find_append (k v : Str) (c : Char) (hk : c ∉ k) :
    find (k ++ c :: v) c = some k.length := by
  induction k with
  | nil => simp [find]
  | cons x xs ih =>
    have hx : ¬ x = c := fun h => hk (by simp [h])
    have hxs : c ∉ xs := fun h => hk (by simp [h])
    simp [find, hx, ih hxs]

theorem find_some_split (s : Str) (c : Char) (p : Nat) (h : find s c = some p) :
    s = s.take p ++ c :: s.drop (p + 1) ∧ c ∉ s.take p := by
  induction s generalizing p with
  | nil => simp [find] at h
  | cons x xs ih =>
    by_cases hx : x = c
    · simp [find, hx] at h
      subst h
      simp [hx]
    · simp only [find, hx, if_false, Option.map_eq_some'] at h
      obtain ⟨q, hq, rfl⟩ := h
      obtain ⟨h1, h2⟩ := ih q hq
      have hx2 : ¬ c = x := fun h => hx h.symm
      refine ⟨?_, ?_⟩
      · simp only [List.take_succ_cons, List.drop_succ_cons, List.cons_append]
        exact congrArg (x :: ·) h1
      · simp [hx2, h2]

theorem keyVal_none_iff (arg : Str) : keyVal arg = none ↔ '=' ∉ arg := by
  simp [keyVal, find_none_iff]

theorem keyVal_append (k v : Str) (hk : '=' ∉ k) : keyVal (k ++ '=' :: v) = some (k, v) := by
  simp [keyVal, find_append k v '=' hk]

theorem keyVal_some_iff (arg k v : Str) :
    keyVal arg = some (k, v) ↔ ('=' ∉ k ∧ arg = k ++ '=' :: v) := by
  constructor
  · intro h
    simp only [keyVal, Option.map_eq_some'] at h
    obtain ⟨p, hp, hkv⟩ := h
    obtain ⟨h1, h2⟩ := find_some_split arg '=' p hp
    simp only [Prod.mk.injEq] at hkv
    obtain ⟨rfl, rfl⟩ := hkv
    exact ⟨h2, h1⟩
  · rintro ⟨hk, rfl⟩
    exact keyVal_append k v hk

/-! ## Lemmas on the store -/

theorem mapFind_none_iff (l : List (Str × Str)) (k : Str) :
    mapFind l k = none ↔ k ∉ l.map Prod.fst := by
  induction l with
  | nil => simp [mapFind]
  | cons p rest ih =>
    obtain ⟨a, b⟩ := p
    by_cases ha : a = k
    · simp [mapFind, ha]
    · have ha2 : ¬ k = a := fun h => ha h.symm
      simp [mapFind, ha, ha2, ih]

theorem mapFind_isSome_iff (l : List (Str × Str)) (k : Str) :
    (mapFind l k).isSome = true ↔ k ∈ l.map Prod.fst := by
  rw [← not_iff_not, ← mapFind_none_iff]
  cases mapFind l k <;> simp

theorem mapFind_append (l1 l2 : List (Str × Str)) (k : Str) :
    mapFind (l1 ++ l2) k = (mapFind l1 k).orElse fun _ => mapFind l2 k := by
  induction l1 with
  | nil => simp [mapFind]
  | cons p rest ih =>
    obtain ⟨a, b⟩ := p
    by_cases ha : a = k
    · simp [mapFind, ha]
    · simp [mapFind, ha, ih]

theorem mapFind_of_mem (l : List (Str × Str)) (k v : Str)
    (hnd : (l.map Prod.fst).Nodup) (hm : (k, v) ∈ l) : mapFind l k = some v := by
  induction l with
  | nil => simp at hm
  | cons p rest ih =>
    obtain ⟨a, b⟩ := p
    simp only [List.map_cons, List.nodup_cons] at hnd
    by_cases ha : a = k
    · subst ha
      rcases List.mem_cons.mp hm with h | h
      · simp only [Prod.mk.injEq] at h
        simp [mapFind, h.2]
      · exact absurd (List.mem_map_of_mem Prod.fst h) hnd.1
    · rcases List.mem_cons.mp hm with h | h
      · simp only [Prod.mk.injEq] at h
        exact absurd h.1.symm ha
      · simp [mapFind, ha, ih hnd.2 h]

theorem mapAssign_absent (l : List (Str × Str)) (k v : Str) (h : mapFind l k = none) :
    mapAssign l k v = l ++ [(k, v)] := by
  induction l with
  | nil => simp [mapAssign]
  | cons p rest ih =>
    obtain ⟨a, b⟩ := p
    by_cases ha : a = k
    · simp [mapFind, ha] at h
    · simp only [mapFind, ha, if_false] at h
      simp [mapAssign, ha, ih h]

theorem mem_setInsert (flags : List Str) (arg n : Str) :
    n ∈ setInsert flags arg ↔ n ∈ flags ∨ n = arg := by
  unfold setInsert
  split
  · constructor
    · exact fun h => Or.inl h
    · rintro (h | rfl)
      · exact h
      · assumption
  · simp

theorem count_le_one_of_nodup (l : List Str) (h : l.Nodup) (k : Str) : l.count k ≤ 1 := by
  induction l with
  | nil => simp
  | cons a rest ih =>
    obtain ⟨ha, hrest⟩ := List.nodup_cons.mp h
    rw [List.count_cons]
    have h1 := ih hrest
    split
    · rename_i hak
      have hk : rest.count k = 0 := List.count_eq_zero.mpr (by
        rw [← eq_of_beq hak]
        exact ha)
      omega
    · omega

/-! ## Lemmas on the constructor -/

theorem step_flag (st : CommandLine) (arg : Str) (h : keyVal arg = none) :
    st.step arg = .ok { st with flags := setInsert st.flags arg } := by
  have hf : find arg '=' = none := by
    simpa [keyVal] using h
  simp [CommandLine.step, hf]

theorem step_keyed (st : CommandLine) (arg k v : Str) (h : keyVal arg = some (k, v)) :
    st.step arg =
      if (mapFind st.args k).isSome then .throws (DuplicateArgument k)
      else .ok { st with args := mapAssign st.args k v } := by
  simp only [keyVal, Option.map_eq_some'] at h
  obtain ⟨p, hp, hkv⟩ := h
  simp only [Prod.mk.injEq] at hkv
  obtain ⟨rfl, rfl⟩ := hkv
  simp [CommandLine.step, hp, DuplicateArgument]

/-- Without a repeated key the loop runs to its end: the entries are appended in
token order and the set gains exactly the tokens without `=`. -/
theorem loop_ok (toks : List Str) (st : CommandLine)
    (hnd : (keyNames toks).Nodup)
    (hfresh : ∀ k ∈ keyNames toks, mapFind st.args k = none) :
    ∃ fl, CommandLine.loop toks st = .ok ⟨st.args ++ toks.filterMap keyVal, fl⟩ ∧
      ∀ n, n ∈ fl ↔ n ∈ st.flags ∨ n ∈ bareTokens toks := by
  induction toks generalizing st with
  | nil => exact ⟨st.flags, by simp [CommandLine.loop], by simp [bareTokens]⟩
  | cons arg rest ih =>
    cases hkv : keyVal arg with
    | none =>
      have hkn : keyNames (arg :: rest) = keyNames rest := by
        simp [keyNames, List.filterMap_cons, hkv]
      rw [hkn] at hnd hfresh
      obtain ⟨fl, h1, h2⟩ := ih { st with flags := setInsert st.flags arg } hnd hfresh
      refine ⟨fl, ?_, ?_⟩
      · simp only [CommandLine.loop, step_flag st arg hkv, Outcome.bind]
        simpa [List.filterMap_cons, hkv] using h1
      · intro n
        have hf : find arg '=' = none := by simpa [keyVal] using hkv
        rw [h2 n]
        simp only [mem_setInsert, bareTokens, List.filter_cons, hf, Option.isNone_none,
          if_true, List.mem_cons]
        tauto
    | some kv =>
      obtain ⟨k, v⟩ := kv
      have hkn : keyNames (arg :: rest) = k :: keyNames rest := by
        simp [keyNames, List.filterMap_cons, hkv]
      rw [hkn] at hnd hfresh
      have hk : mapFind st.args k = none := hfresh k (List.mem_cons_self _ _)
      have hnd2 := List.nodup_cons.mp hnd
      have hfresh2 : ∀ k2 ∈ keyNames rest,
          mapFind ({ st with args := mapAssign st.args k v } : CommandLine).args k2 = none := by
        intro k2 hk2
        have hne : ¬ k = k2 := fun h => hnd2.1 (h ▸ hk2)
        simp only [mapAssign_absent st.args k v hk, mapFind_append,
          hfresh k2 (List.mem_cons_of_mem _ hk2)]
        simp [mapFind, hne]
      obtain ⟨fl, h1, h2⟩ := ih { st with args := mapAssign st.args k v } hnd2.2 hfresh2
      refine ⟨fl, ?_, ?_⟩
      · simp only [CommandLine.loop, step_keyed st arg k v hkv, hk, Option.isSome_none,
          Outcome.bind]
        simpa [List.filterMap_cons, hkv, mapAssign_absent st.args k v hk] using h1
      · intro n
        have hf : (find arg '=').isNone = false := by
          simp only [keyVal] at hkv
          cases hfa : find arg '=' with
          | none => simp [hfa] at hkv
          | some p => rfl
        rw [h2 n]
        simp [bareTokens, List.filter_cons, hf]

/-- With a key repeated among the stored keys and the keys still to come, the
loop throws, and the key it names occurs twice among them. -/
theorem loop_throws (toks : List Str) (st : CommandLine)
    (hseen : (st.args.map Prod.fst).Nodup)
    (hdup : ¬ (st.args.map Prod.fst ++ keyNames toks).Nodup) :
    ∃ k, CommandLine.loop toks st = .throws (DuplicateArgument k) ∧
      2 ≤ (st.args.map Prod.fst ++ keyNames toks).count k := by
  induction toks generalizing st with
  | nil => simp [keyNames, hseen] at hdup
  | cons arg rest ih =>
    cases hkv : keyVal arg with
    | none =>
      have hkn : keyNames (arg :: rest) = keyNames rest := by
        simp [keyNames, List.filterMap_cons, hkv]
      rw [hkn] at hdup ⊢
      obtain ⟨k, h1, h2⟩ := ih { st with flags := setInsert st.flags arg } hseen hdup
      exact ⟨k, by simpa [CommandLine.loop, step_flag st arg hkv, Outcome.bind] using h1, h2⟩
    | some kv =>
      obtain ⟨k, v⟩ := kv
      have hkn : keyNames (arg :: rest) = k :: keyNames rest := by
        simp [keyNames, List.filterMap_cons, hkv]
      rw [hkn] at hdup ⊢
      cases hk : mapFind st.args k with
      | some w =>
        refine ⟨k, ?_, ?_⟩
        · simp [CommandLine.loop, step_keyed st arg k v hkv, hk, Outcome.bind]
        · have hmem : k ∈ st.args.map Prod.fst :=
            (mapFind_isSome_iff st.args k).mp (by simp [hk])
          have h1 : 1 ≤ (st.args.map Prod.fst).count k := List.count_pos_iff.mpr hmem
          rw [List.count_append, List.count_cons_self]
          omega
      | none =>
        have hnot : k ∉ st.args.map Prod.fst := (mapFind_none_iff st.args k).mp hk
        have hargs : (mapAssign st.args k v).map Prod.fst = st.args.map Prod.fst ++ [k] := by
          simp [mapAssign_absent st.args k v hk]
        have hre : st.args.map Prod.fst ++ k :: keyNames rest
            = (st.args.map Prod.fst ++ [k]) ++ keyNames rest := by simp
        have hseen2 : (st.args.map Prod.fst ++ [k]).Nodup := by
          rw [List.nodup_append]
          exact ⟨hseen, List.nodup_singleton k, by
            intro a ha hb
            rw [List.mem_singleton] at hb
            exact hnot (hb ▸ ha)⟩
        rw [hre] at hdup ⊢
        obtain ⟨k2, h1, h2⟩ := ih { st with args := mapAssign st.args k v }
          (by simpa only [hargs] using hseen2) (by simpa only [hargs] using hdup)
        refine ⟨k2, ?_, by simpa only [hargs] using h2⟩
        simpa [CommandLine.loop, step_keyed st arg k v hkv, hk, Outcome.bind] using h1

/-! ## Lemmas on the decoder -/

theorem getline_none_iff (s : Str) (d : Char) : getline s d = none ↔ s = [] := by
  cases s with
  | nil => simp [getline]
  | cons c cs =>
    simp only [getline]
    split
    · simp
    · split <;> simp

theorem getline_rest_lt (s : Str) (d : Char) (line rest : Str)
    (h : getline s d = some (line, rest)) : rest.length < s.length := by
  induction s generalizing line rest with
  | nil => simp [getline] at h
  | cons c cs ih =>
    simp only [getline] at h
    split at h
    · simp only [Option.some.injEq, Prod.mk.injEq] at h
      simp [← h.2]
    · split at h
      · simp only [Option.some.injEq, Prod.mk.injEq] at h
        simp [← h.2]
      · rename_i l r hg
        simp only [Option.some.injEq, Prod.mk.injEq] at h
        have := ih l r hg
        simp only [← h.2, List.length_cons]
        omega

theorem getline_no_delim (s : Str) (d : Char) (hne : s ≠ []) (hd : d ∉ s) :
    getline s d = some (s, []) := by
  induction s with
  | nil => exact absurd rfl hne
  | cons c cs ih =>
    have hc : ¬ c = d := fun h => hd (by simp [h])
    have hcs : d ∉ cs := fun h => hd (by simp [h])
    cases cs with
    | nil => simp [getline, hc]
    | cons c2 cs2 =>
      have := ih (by simp) hcs
      simp only [getline, hc, if_false]
      rw [getline] at this
      simp [this]

/-- Without a NUL character the string decode returns its argument. -/
theorem simple_cast_string_id (s : Str) (h : '\x00' ∉ s) : simple_cast_string s = s := by
  cases s with
  | nil => simp [simple_cast_string, getline]
  | cons c cs => simp [simple_cast_string, getline_no_delim (c :: cs) '\x00' (by simp) h]

/-- The delimiter of the string decode is the NUL character, so the
hypothesis of `simple_cast_string_id` cannot be dropped: the three
characters `a`, NUL, `b` decode to `a`. -/
theorem simple_cast_string_nul : simple_cast_string ['a', '\x00', 'b'] = ['a'] := by
  decide

/-- Every iteration consumes a character: there are at most as many
components as characters. -/
theorem parseLoop_length_le {α : Type} (conv : Str → α) (fuel : Nat) (s : Str) :
    (parseLoop conv fuel s).length ≤ s.length := by
  induction fuel generalizing s with
  | zero => simp [parseLoop]
  | succ n ih =>
    simp only [parseLoop]
    cases hg : getline s ',' with
    | none => simp
    | some p =>
      obtain ⟨line, rest⟩ := p
      have h1 := getline_rest_lt s ',' line rest hg
      have h2 := ih rest
      simp only [List.length_cons]
      omega

/-- Once the fuel exceeds the number of unread characters the loop no longer
depends on it: the failing `getline` is reached. -/
theorem parseLoop_fuel {α : Type} (conv : Str → α) (fuel1 fuel2 : Nat) (s : Str)
    (h1 : s.length < fuel1) (h2 : s.length < fuel2) :
    parseLoop conv fuel1 s = parseLoop conv fuel2 s := by
  induction fuel1 generalizing fuel2 s with
  | zero => omega
  | succ n ih =>
    cases fuel2 with
    | zero => omega
    | succ m =>
      simp only [parseLoop]
      cases hg : getline s ',' with
      | none => rfl
      | some p =>
        obtain ⟨line, rest⟩ := p
        have hlt := getline_rest_lt s ',' line rest hg
        simp only
        rw [ih m rest (by omega) (by omega)]

/-- The loop equation of `parseCommaDelimitedList`: one `getline`, then the
list of the rest of the stream. -/
theorem parseCommaDelimitedList_unfold {α : Type} (conv : Str → α) (s : Str) :
    parseCommaDelimitedList conv s =
      match getline s ',' with
      | none => []
      | some (current, rest) => conv current :: parseCommaDelimitedList conv rest := by
  have hstep : parseLoop conv (s.length + 1) s =
      match getline s ',' with
      | none => []
      | some (current, rest) => conv current :: parseLoop conv s.length rest := rfl
  unfold parseCommaDelimitedList
  rw [hstep]
  cases hg : getline s ',' with
  | none => rfl
  | some p =>
    obtain ⟨line, rest⟩ := p
    have hlt := getline_rest_lt s ',' line rest hg
    simp only
    rw [parseLoop_fuel conv s.length (rest.length + 1) rest hlt (by omega)]

theorem parseCommaDelimitedList_length_le {α : Type} (conv : Str → α) (s : Str) :
    (parseCommaDelimitedList conv s).length ≤ s.length :=
  parseLoop_length_le conv _ s

theorem parseCommaDelimitedList_eq_nil {α : Type} (conv : Str → α) (s : Str)
    (h : (parseCommaDelimitedList conv s).length = 0) : s = [] := by
  rw [parseCommaDelimitedList_unfold] at h
  cases hg : getline s ',' with
  | none => exact (getline_none_iff s ',').mp hg
  | some p => simp [hg] at h

theorem parseSyclArray_long (s : Str) (d : Nat) (h : 3 < s.length) :
    parseSyclArray s d = .throws (InvalidVectorLiteral s) := by
  simp [parseSyclArray, h, InvalidVectorLiteral]

theorem parseSyclArray_nil (d : Nat) :
    parseSyclArray [] d = .throws (InvalidVectorLiteral []) := by
  simp [parseSyclArray, InvalidVectorLiteral]

/-- An exception leaving `parseSyclArray` is its own `std::invalid_argument`. -/
theorem parseSyclArray_throws (s : Str) (d : Nat) (e : Exn)
    (h : parseSyclArray s d = .throws e) : e = InvalidVectorLiteral s := by
  have hidx : ∀ (l : List SizeVal) (i : Nat), (∃ x, index l i = .ok x) ∨ index l i = .ub := by
    intro l i
    unfold index
    cases l.get? i with
    | none => exact Or.inr rfl
    | some x => exact Or.inl ⟨x, rfl⟩
  unfold parseSyclArray at h
  simp only at h
  generalize parseCommaDelimitedList simple_cast_size_t s = elements at h
  split at h
  · simpa [InvalidVectorLiteral] using h.symm
  · split at h
    · rcases hidx elements 0 with ⟨x0, h0⟩ | h0 <;>
        rcases hidx elements 1 with ⟨x1, h1⟩ | h1 <;>
        rcases hidx elements 2 with ⟨x2, h2⟩ | h2 <;>
        simp [h0, h1, h2, Outcome.bind] at h
    · split at h
      · rcases hidx elements 0 with ⟨x0, h0⟩ | h0 <;>
          rcases hidx elements 1 with ⟨x1, h1⟩ | h1 <;>
          simp [h0, h1, Outcome.bind] at h
      · split at h
        · rcases hidx elements 0 with ⟨x0, h0⟩ | h0 <;>
            simp [h0, Outcome.bind] at h
        · simpa [InvalidVectorLiteral] using h.symm

/-- An exception leaving `cast<T>` is the one of `parseSyclArray`. -/
theorem cast_throws (T : Ty) (s : Str) (e : Exn) (h : cast T s = .throws e) :
    e = InvalidVectorLiteral s := by
  cases T with
  | string => simp [cast] at h
  | size_t => simp [cast] at h
  | range3 => exact parseSyclArray_throws s 1 e h
  | id3 => exact parseSyclArray_throws s 0 e h

theorem invalid_ne_missing (s n : Str) : InvalidVectorLiteral s ≠ MissingArgument n := by
  intro h
  have h2 : invalidSyclMsg s = missingMsg n := by
    simpa [InvalidVectorLiteral, MissingArgument] using h
  have h3 : (invalidSyclMsg s).head? = (missingMsg n).head? := congrArg List.head? h2
  have h4 : (invalidSyclMsg s).head? = some 'I' := rfl
  have h5 : (missingMsg n).head? = some 'C' := rfl
  rw [h4, h5] at h3
  exact absurd h3 (by decide)

theorem toDigitsCore_length_ge (b fuel n : Nat) (ds : List Char) :
    ds.length ≤ (Nat.toDigitsCore b fuel n ds).length := by
  induction fuel generalizing n ds with
  | zero => simp [Nat.toDigitsCore]
  | succ f ih =>
    simp only [Nat.toDigitsCore]
    split
    · simp
    · exact Nat.le_trans (by simp) (ih _ _)

theorem decimal_length_pos (n : Nat) : 1 ≤ (decimal n).length := by
  simp only [decimal, Nat.toDigits, Nat.toDigitsCore]
  split
  · simp
  · exact Nat.le_trans (by simp) (toDigitsCore_length_ge _ _ _ _)

/-! ## Lemmas on the scalar decode -/

theorem digitsVal_snoc (l : Str) (c : Char) :
    digitsVal (l ++ [c]) = 10 * digitsVal l + digitVal c := by
  simp [digitsVal, List.foldl_append]

theorem digitsVal_eq_ofDigits (ds : Str) :
    digitsVal ds = Nat.ofDigits 10 ((ds.map digitVal).reverse) := by
  induction ds using List.reverseRecOn with
  | nil => simp [digitsVal]
  | append_singleton l c ih =>
    rw [digitsVal_snoc, ih]
    simp [Nat.ofDigits_cons]
    omega

theorem digitChar_spec (d : Nat) (h : d < 10) :
    isdigit (Nat.digitChar d) = true ∧ digitVal (Nat.digitChar d) = d := by
  interval_cases d <;> exact ⟨by decide, by decide⟩

theorem toDigitsCore_append (fuel n : Nat) (ds : List Char) :
    Nat.toDigitsCore 10 fuel n ds = Nat.toDigitsCore 10 fuel n [] ++ ds := by
  induction fuel generalizing n ds with
  | zero => simp [Nat.toDigitsCore]
  | succ f ih =>
    simp only [Nat.toDigitsCore]
    split
    · simp
    · rw [ih (n / 10) (Nat.digitChar (n % 10) :: ds), ih (n / 10) [Nat.digitChar (n % 10)]]
      simp

theorem toDigitsCore_spec (fuel n : Nat) (h : n < fuel) :
    (∀ c ∈ Nat.toDigitsCore 10 fuel n [], isdigit c = true) ∧
      digitsVal (Nat.toDigitsCore 10 fuel n []) = n := by
  induction fuel generalizing n with
  | zero => omega
  | succ f ih =>
    have hd := digitChar_spec (n % 10) (Nat.mod_lt n (by decide))
    simp only [Nat.toDigitsCore]
    split
    · rename_i h0
      refine ⟨by simpa using hd.1, ?_⟩
      have := Nat.div_add_mod n 10
      simp only [digitsVal, List.foldl_cons, List.foldl_nil, hd.2]
      omega
    · rename_i h0
      have hlt : n / 10 < f := by omega
      obtain ⟨h1, h2⟩ := ih (n / 10) hlt
      rw [toDigitsCore_append]
      refine ⟨?_, ?_⟩
      · intro c hc
        rcases List.mem_append.mp hc with hc | hc
        · exact h1 c hc
        · rw [List.mem_singleton] at hc
          rw [hc]
          exact hd.1
      · rw [digitsVal_snoc, h2, hd.2]
        have := Nat.div_add_mod n 10
        omega

/-- The decimal text of `n` is a run of digits whose value is `n`. -/
theorem decimal_spec (n : Nat) :
    (∀ c ∈ decimal n, isdigit c = true) ∧ digitsVal (decimal n) = n :=
  toDigitsCore_spec (n + 1) n (Nat.lt_succ_self n)

theorem isdigit_not_special (c : Char) (h : isdigit c = true) :
    isspace c = false ∧ c ≠ '-' ∧ c ≠ '+' := by
  refine ⟨?_, ?_, ?_⟩
  · cases hs : isspace c with
    | false => rfl
    | true =>
      simp only [isspace, Bool.or_eq_true, decide_eq_true_eq] at hs
      rcases hs with ((((hs | hs) | hs) | hs) | hs) | hs <;> subst hs <;>
        exact absurd h (by decide)
  · intro hc
    subst hc
    exact absurd h (by decide)
  · intro hc
    subst hc
    exact absurd h (by decide)

/-- Extraction reads a leading run of digits and leaves the rest unread. -/
theorem extract_digit_run (ds suffix : Str) (hne : ds ≠ [])
    (hd : ∀ c ∈ ds, isdigit c = true)
    (hs : ∀ c, suffix.head? = some c → isdigit c = false)
    (hfit : digitsVal ds ≤ SIZE_MAX) :
    extract_size_t (ds ++ suffix) = .val (digitsVal ds) := by
  have htake : (ds ++ suffix).takeWhile isdigit = ds := by
    rw [List.takeWhile_append_of_pos hd]
    cases suffix with
    | nil => simp
    | cons x xs => simp [List.takeWhile_cons, hs x rfl]
  cases ds with
  | nil => exact absurd rfl hne
  | cons c cs =>
    obtain ⟨h1, h2, h3⟩ := isdigit_not_special c (hd c (List.mem_cons_self _ _))
    have hdrop : (c :: cs ++ suffix).dropWhile isspace = c :: (cs ++ suffix) := by
      simp [List.dropWhile_cons, h1]
    have hfit2 : ¬ SIZE_MAX < digitsVal (c :: cs) := by omega
    unfold extract_size_t
    rw [hdrop]
    simp only [h2, h3, or_self, if_false]
    rw [show c :: (cs ++ suffix) = (c :: cs) ++ suffix from rfl, htake]
    simp [hfit2]

/-! ## Lemmas on token order -/

theorem loop_append (pre rest : List Str) (st : CommandLine) :
    CommandLine.loop (pre ++ rest) st = (CommandLine.loop pre st).bind (CommandLine.loop rest) := by
  induction pre generalizing st with
  | nil => simp [CommandLine.loop, Outcome.bind]
  | cons arg pre ih =>
    simp only [List.cons_append, CommandLine.loop]
    cases st.step arg with
    | ok st2 => simpa [Outcome.bind] using ih st2
    | throws e => simp [Outcome.bind]
    | ub => simp [Outcome.bind]

theorem keyNames_append (l1 l2 : List Str) :
    keyNames (l1 ++ l2) = keyNames l1 ++ keyNames l2 := by
  simp [keyNames, List.filterMap_append]

/-- The constructor throws at the first token whose key is already stored. -/
theorem ctor_first_duplicate (pre post : List Str) (tok k v : Str)
    (hpre : (keyNames pre).Nodup) (htok : keyVal tok = some (k, v))
    (hk : k ∈ keyNames pre) :
    CommandLine.ctor (pre ++ tok :: post) = .throws (DuplicateArgument k) := by
  obtain ⟨fl, h1, _⟩ := loop_ok pre ⟨[], []⟩ hpre (fun k _ => rfl)
  have hsome : (mapFind (pre.filterMap keyVal) k).isSome = true :=
    (mapFind_isSome_iff _ k).mpr hk
  rw [CommandLine.ctor, loop_append, h1]
  simp [Outcome.bind, CommandLine.loop, step_keyed _ tok k v htok, hsome]

/-- A token sequence with a repeated key splits at its first duplicate. -/
theorem exists_first_duplicate (argv : List Str) (h : ¬ (keyNames argv).Nodup) :
    ∃ pre tok k v post, argv = pre ++ tok :: post ∧ (keyNames pre).Nodup ∧
      keyVal tok = some (k, v) ∧ k ∈ keyNames pre := by
  induction argv using List.reverseRecOn with
  | nil => simp [keyNames] at h
  | append_singleton init last ih =>
    by_cases hinit : (keyNames init).Nodup
    · cases hkv : keyVal last with
      | none =>
        have : keyNames (init ++ [last]) = keyNames init := by
          simp [keyNames, List.filterMap_append, hkv]
        exact absurd (this ▸ hinit) h
      | some kv =>
        obtain ⟨k, v⟩ := kv
        have hkn : keyNames (init ++ [last]) = keyNames init ++ [k] := by
          simp [keyNames, List.filterMap_append, hkv]
        refine ⟨init, last, k, v, [], rfl, hinit, hkv, ?_⟩
        by_contra hk
        apply h
        rw [hkn, List.nodup_append]
        refine ⟨hinit, List.nodup_singleton k, ?_⟩
        intro a ha hb
        rw [List.mem_singleton] at hb
        exact hk (hb ▸ ha)
    · obtain ⟨pre, tok, k, v, post, h1, h2, h3, h4⟩ := ih hinit
      exact ⟨pre, tok, k, v, post ++ [last], by simp [h1], h2, h3, h4⟩

theorem duplicateArgument_inj (k1 k2 : Str) (h : DuplicateArgument k1 = DuplicateArgument k2) :
    k1 = k2 := by
  simp only [DuplicateArgument, duplicateMsg, Exn.invalid_argument.injEq] at h
  exact List.append_cancel_left h

theorem mapFind_some_mem (l : List (Str × Str)) (k v : Str) (h : mapFind l k = some v) :
    (k, v) ∈ l := by
  induction l with
  | nil => simp [mapFind] at h
  | cons p rest ih =>
    obtain ⟨a, b⟩ := p
    by_cases ha : a = k
    · simp only [mapFind, ha, if_true, Option.some.injEq] at h
      simp [ha, h]
    · simp only [mapFind, ha, if_false] at h
      exact List.mem_cons_of_mem _ (ih h)

/-- Lookup does not depend on the order of a map with distinct keys. -/
theorem mapFind_perm (l1 l2 : List (Str × Str)) (hp : l1.Perm l2)
    (hnd : (l1.map Prod.fst).Nodup) (k : Str) : mapFind l1 k = mapFind l2 k := by
  have hnd2 : (l2.map Prod.fst).Nodup := ((hp.map Prod.fst).nodup_iff).mp hnd
  cases h1 : mapFind l1 k with
  | none =>
    have hk : k ∉ l2.map Prod.fst := fun hm =>
      (mapFind_none_iff l1 k).mp h1 ((hp.map Prod.fst).mem_iff.mpr hm)
    exact ((mapFind_none_iff l2 k).mpr hk).symm
  | some v =>
    have hm : (k, v) ∈ l2 := hp.mem_iff.mp (mapFind_some_mem l1 k v h1)
    exact (mapFind_of_mem l2 k v hnd2 hm).symm

/-! ## Lemmas on the comma-delimited split -/

theorem parseLoop_map {α : Type} (conv : Str → α) (fuel : Nat) (s : Str) :
    parseLoop conv fuel s = (parseLoop (fun x => x) fuel s).map conv := by
  induction fuel generalizing s with
  | zero => simp [parseLoop]
  | succ f ih =>
    simp only [parseLoop]
    cases getline s ',' with
    | none => simp
    | some p => simp [ih p.2]

theorem parseCommaDelimitedList_map {α : Type} (conv : Str → α) (s : Str) :
    parseCommaDelimitedList conv s = (parseCommaDelimitedList (fun x => x) s).map conv :=
  parseLoop_map conv _ s

theorem split_nil {α : Type} (conv : Str → α) : parseCommaDelimitedList conv [] = [] := by
  rw [parseCommaDelimitedList_unfold]
  simp [getline]

theorem split_comma {α : Type} (conv : Str → α) (cs : Str) :
    parseCommaDelimitedList conv (',' :: cs) = conv [] :: parseCommaDelimitedList conv cs := by
  rw [parseCommaDelimitedList_unfold]
  simp [getline]

theorem split_eq_nil_iff {α : Type} (conv : Str → α) (s : Str) :
    parseCommaDelimitedList conv s = [] ↔ s = [] := by
  constructor
  · intro h
    exact parseCommaDelimitedList_eq_nil conv s (by simp [h])
  · rintro rfl
    exact split_nil conv

theorem split_char (c : Char) (cs : Str) (hc : c ≠ ',') :
    parseCommaDelimitedList (fun x => x) (c :: cs) =
      match parseCommaDelimitedList (fun x => x) cs with
      | [] => [[c]]
      | l :: ls => (c :: l) :: ls := by
  rw [parseCommaDelimitedList_unfold, parseCommaDelimitedList_unfold (fun x => x) cs]
  simp only [getline, hc, if_false]
  cases getline cs ',' with
  | none => simp [split_nil]
  | some p => rfl

theorem split_char_single (c : Char) (hc : c ≠ ',') :
    parseCommaDelimitedList (fun x => x) [c] = [[c]] := by
  rw [split_char c [] hc, split_nil]

theorem split_char_cons (c d : Char) (ds : Str) (hc : c ≠ ',') :
    ∃ l ls, parseCommaDelimitedList (fun x => x) (d :: ds) = l :: ls ∧
      parseCommaDelimitedList (fun x => x) (c :: d :: ds) = (c :: l) :: ls := by
  cases hR : parseCommaDelimitedList (fun x => x) (d :: ds) with
  | nil => exact absurd ((split_eq_nil_iff _ _).mp hR) (by simp)
  | cons l ls => exact ⟨l, ls, rfl, by rw [split_char c (d :: ds) hc, hR]⟩

/-- The components contain no comma, and only characters of the raw string. -/
theorem split_mem (s : Str) :
    ∀ x ∈ parseCommaDelimitedList (fun x => x) s, ',' ∉ x ∧ ∀ c ∈ x, c ∈ s := by
  induction s with
  | nil => simp [split_nil]
  | cons c cs ih =>
    by_cases hc : c = ','
    · subst hc
      rw [split_comma]
      intro x hx
      rcases List.mem_cons.mp hx with rfl | hx
      · simp
      · exact ⟨(ih x hx).1, fun a ha => List.mem_cons_of_mem _ ((ih x hx).2 a ha)⟩
    · have hc2 : ¬ ',' = c := fun h => hc h.symm
      cases cs with
      | nil =>
        rw [split_char_single c hc]
        intro x hx
        rw [List.mem_singleton] at hx
        subst hx
        simp [hc2]
      | cons d ds =>
        obtain ⟨l, ls, h1, h2⟩ := split_char_cons c d ds hc
        rw [h2]
        rw [h1] at ih
        intro x hx
        rcases List.mem_cons.mp hx with rfl | hx
        · have hl := ih l (List.mem_cons_self _ _)
          refine ⟨by simp [hc2, hl.1], ?_⟩
          intro a ha
          rcases List.mem_cons.mp ha with rfl | ha
          · simp
          · exact List.mem_cons_of_mem _ (hl.2 a ha)
        · have hl := ih x (List.mem_cons_of_mem _ hx)
          exact ⟨hl.1, fun a ha => List.mem_cons_of_mem _ (hl.2 a ha)⟩

/-- Number of components: one per comma, and one more for a non-empty final
segment. -/
theorem split_length (s : Str) :
    (parseCommaDelimitedList (fun x => x) s).length =
      s.count ',' + (if s = [] ∨ s.getLast? = some ',' then 0 else 1) := by
  induction s with
  | nil => simp [split_nil]
  | cons c cs ih =>
    by_cases hc : c = ','
    · subst hc
      rw [split_comma, List.length_cons, ih, List.count_cons_self]
      cases cs with
      | nil => simp
      | cons d ds => simp [List.getLast?_cons_cons]; omega
    · have hc2 : ¬ (c == ',') = true := by simpa using hc
      cases cs with
      | nil =>
        rw [split_char_single c hc]
        simp [List.count_cons, hc]
      | cons d ds =>
        obtain ⟨l, ls, h1, h2⟩ := split_char_cons c d ds hc
        rw [h2]
        rw [h1] at ih
        simp only [List.length_cons] at ih ⊢
        rw [ih, List.count_cons (a := ',') (b := c), if_neg hc2]
        simp [List.getLast?_cons_cons]

theorem intercalate_cons_head (sep : Str) (c : Char) (l : Str) (ls : List Str) :
    sep.intercalate ((c :: l) :: ls) = c :: sep.intercalate (l :: ls) := by
  cases ls <;> simp [List.intercalate]

/-- Joining the components with commas gives back the raw string, up to the
final comma. -/
theorem split_join (s : Str) :
    [','].intercalate (parseCommaDelimitedList (fun x => x) s) ++
      (if s.getLast? = some ',' then [','] else []) = s := by
  induction s with
  | nil => simp [split_nil, List.intercalate]
  | cons c cs ih =>
    by_cases hc : c = ','
    · subst hc
      rw [split_comma]
      cases cs with
      | nil => simp [split_nil, List.intercalate]
      | cons d ds =>
        cases hR : parseCommaDelimitedList (fun x => x) (d :: ds) with
        | nil => exact absurd ((split_eq_nil_iff _ _).mp hR) (by simp)
        | cons l ls =>
          rw [hR] at ih
          rw [List.getLast?_cons_cons]
          have : [','].intercalate ([] :: l :: ls) = ',' :: [','].intercalate (l :: ls) := by
            simp [List.intercalate]
          rw [this, List.cons_append, ih]
    · cases cs with
      | nil =>
        rw [split_char_single c hc]
        simp [List.intercalate, hc]
      | cons d ds =>
        obtain ⟨l, ls, h1, h2⟩ := split_char_cons c d ds hc
        rw [h2, intercalate_cons_head, List.getLast?_cons_cons, List.cons_append]
        rw [h1] at ih
        rw [ih]

/-- Each component of a NUL-free string is decoded to itself. -/
theorem split_string (s : Str) (h : '\x00' ∉ s) :
    parseCommaDelimitedList simple_cast_string s = parseCommaDelimitedList (fun x => x) s := by
  rw [parseCommaDelimitedList_map simple_cast_string s]
  conv => rhs; rw [← List.map_id (parseCommaDelimitedList (fun x => x) s)]
  apply List.map_congr_left
  intro x hx
  simp only [id]
  exact simple_cast_string_id x (fun hn => h ((split_mem s x hx).2 _ hn))

/-! ## The claims -/

/-- C1: when no keyed-argument name occurs in more than one token, the
constructor succeeds; `isArgSet n` holds exactly when some token is `n`, an
`=`, and a value, with no `=` inside `n`; `isFlagSet n` holds exactly when
`n` is a token without `=`. -/
theorem ctor_reflects_tokens (argv : List Str) (hnd : (keyNames argv).Nodup) :
    ∃ cl, CommandLine.ctor argv = .ok cl ∧
      (∀ n, cl.isArgSet n = true ↔ ('=' ∉ n ∧ ∃ v, (n ++ '=' :: v) ∈ argv)) ∧
      (∀ n, cl.isFlagSet n = true ↔ ('=' ∉ n ∧ n ∈ argv)) := by
  obtain ⟨fl, h1, h2⟩ := loop_ok argv ⟨[], []⟩ hnd (fun k _ => rfl)
  refine ⟨_, h1, ?_, ?_⟩
  · intro n
    simp only [CommandLine.isArgSet, List.nil_append, mapFind_isSome_iff, List.mem_map,
      List.mem_filterMap]
    constructor
    · rintro ⟨⟨k, v⟩, ⟨tok, htok, hkv⟩, rfl⟩
      obtain ⟨hk, rfl⟩ := (keyVal_some_iff tok k v).mp hkv
      exact ⟨hk, v, htok⟩
    · rintro ⟨hn, v, hv⟩
      exact ⟨(n, v), ⟨_, hv, keyVal_append n v hn⟩, rfl⟩
  · intro n
    simp only [CommandLine.isFlagSet, decide_eq_true_eq, h2 n, List.not_mem_nil, false_or,
      bareTokens, List.mem_filter, Option.isNone_iff_eq_none, find_none_iff]
    tauto

/-- C1, on the tokens `prog --size=128 --local=32 --no-verification`. -/
theorem ctor_reflects_tokens_witness :
    (keyNames ["prog".toList, "--size=128".toList, "--local=32".toList,
        "--no-verification".toList]).Nodup ∧
    ∃ cl, CommandLine.ctor ["prog".toList, "--size=128".toList, "--local=32".toList,
        "--no-verification".toList] = .ok cl ∧
      (∀ n, cl.isArgSet n = true ↔ ('=' ∉ n ∧ ∃ v, (n ++ '=' :: v) ∈
        ["prog".toList, "--size=128".toList, "--local=32".toList,
          "--no-verification".toList])) ∧
      (∀ n, cl.isFlagSet n = true ↔ ('=' ∉ n ∧ n ∈
        ["prog".toList, "--size=128".toList, "--local=32".toList,
          "--no-verification".toList])) :=
  ⟨by decide, ctor_reflects_tokens _ (by decide)⟩

/-- C2: when some keyed-argument name occurs in two or more tokens, the
constructor throws `DuplicateArgument` for a name that occurs at least
twice, so it yields no store; and when `k0` is the only repeated name, the
error names `k0`. -/
theorem ctor_duplicate_fails (argv : List Str) (k0 : Str)
    (hdup : 2 ≤ (keyNames argv).count k0) :
    (∃ k, 2 ≤ (keyNames argv).count k ∧
      CommandLine.ctor argv = .throws (DuplicateArgument k)) ∧
    (∀ cl, CommandLine.ctor argv ≠ .ok cl) ∧
    ((∀ k, 2 ≤ (keyNames argv).count k → k = k0) →
      CommandLine.ctor argv = .throws (DuplicateArgument k0)) := by
  have hnd : ¬ (keyNames argv).Nodup := by
    intro h
    exact absurd hdup (by have := count_le_one_of_nodup _ h k0; omega)
  obtain ⟨k, h1, h2⟩ := loop_throws argv ⟨[], []⟩ (by simp) (by simpa using hnd)
  simp only [List.map_nil, List.nil_append] at h2
  refine ⟨⟨k, h2, h1⟩, ?_, ?_⟩
  · intro cl hcl
    rw [CommandLine.ctor, h1] at hcl
    exact Outcome.noConfusion hcl
  · intro honly
    rw [← honly k h2]
    exact h1

/-- C2, on the tokens `prog --size=128 --size=256`: the constructor throws
`DuplicateArgument("--size")`. -/
theorem ctor_duplicate_fails_witness :
    2 ≤ (keyNames ["prog".toList, "--size=128".toList, "--size=256".toList]).count
        "--size".toList ∧
    CommandLine.ctor ["prog".toList, "--size=128".toList, "--size=256".toList]
      = .throws (DuplicateArgument "--size".toList) :=
  ⟨by decide,
    (ctor_duplicate_fails ["prog".toList, "--size=128".toList, "--size=256".toList]
      "--size".toList (by decide)).2.2 (by
        intro k hk
        by_contra hne
        have hkn : keyNames ["prog".toList, "--size=128".toList, "--size=256".toList]
            = ["--size".toList, "--size".toList] := by decide
        rw [hkn] at hk
        simp only [List.count_cons, List.count_nil, beq_iff_eq] at hk
        split at hk
        · rename_i h
          exact hne h.symm
        · omega)⟩

/-- C3: on a constructed `CommandLine`, for each of the decoded types,
`get<T>(n)` throws `MissingArgument(n)` exactly when `isArgSet(n)` is false. -/
theorem get_missing_iff (argv : List Str) (cl : CommandLine)
    (_hcl : CommandLine.ctor argv = .ok cl) (T : Ty) (n : Str) :
    cl.get T n = .throws (MissingArgument n) ↔ cl.isArgSet n = false := by
  unfold CommandLine.get CommandLine.isArgSet mapAt
  cases hf : mapFind cl.args n with
  | none => simp [Outcome.bind, MissingArgument]
  | some v =>
    simp only [Outcome.bind, Option.isSome_some, Bool.true_eq_false, iff_false]
    cases hc : cast T v with
    | ok a => simp
    | ub => simp
    | throws e =>
      have he := cast_throws T v e hc
      subst he
      simp only [InvalidVectorLiteral]
      intro h
      exact invalid_ne_missing v n (by simpa [InvalidVectorLiteral] using h)

/-- C3, on the tokens `prog --size=128` and the names `--size`, `--local`. -/
theorem get_missing_iff_witness :
    CommandLine.ctor ["prog".toList, "--size=128".toList]
      = .ok ⟨[("--size".toList, "128".toList)], ["prog".toList]⟩ ∧
    ((CommandLine.mk [("--size".toList, "128".toList)] ["prog".toList]).get .range3
        "--local".toList = .throws (MissingArgument "--local".toList) ↔
      (CommandLine.mk [("--size".toList, "128".toList)] ["prog".toList]).isArgSet
        "--local".toList = false) :=
  ⟨by decide, get_missing_iff ["prog".toList, "--size=128".toList] _ (by decide) .range3
    "--local".toList⟩

/-- C4: on a constructed `CommandLine`, for each of the decoded types, when
`isArgSet(n)` is false `getOrDefault<T>(n, d)` returns `d`. -/
theorem getOrDefault_absent (argv : List Str) (cl : CommandLine)
    (_hcl : CommandLine.ctor argv = .ok cl) (T : Ty) (n : Str) (d : T.denote)
    (hn : cl.isArgSet n = false) : cl.getOrDefault T n d = .ok d := by
  simp [CommandLine.getOrDefault, hn]

/-- C4, on the tokens `prog --size=128`, the name `--verification-range`
and the default `(1, 1, 1)`. -/
theorem getOrDefault_absent_witness :
    CommandLine.ctor ["prog".toList, "--size=128".toList]
      = .ok ⟨[("--size".toList, "128".toList)], ["prog".toList]⟩ ∧
    (CommandLine.mk [("--size".toList, "128".toList)] ["prog".toList]).getOrDefault .range3
      "--verification-range".toList ⟨.val 1, .val 1, .val 1⟩
      = .ok ⟨.val 1, .val 1, .val 1⟩ :=
  ⟨by decide, getOrDefault_absent ["prog".toList, "--size=128".toList] _ (by decide) .range3
    "--verification-range".toList ⟨.val 1, .val 1, .val 1⟩ (by decide)⟩

/-- C5: the range-like decode of the decimal texts of `a`, `b`, `c` joined by
commas never returns `(a, b, c)`: the text has more than three characters, so
`parseSyclArray` throws; in particular `"1,2,3"` is rejected. -/
theorem roundtrip_triple_throws (a b c : Nat) :
    cast .range3 (decimal a ++ ',' :: (decimal b ++ ',' :: decimal c))
      = .throws (InvalidVectorLiteral (decimal a ++ ',' :: (decimal b ++ ',' :: decimal c))) ∧
    cast .range3 "1,2,3".toList = .throws (InvalidVectorLiteral "1,2,3".toList) := by
  refine ⟨?_, by decide⟩
  apply parseSyclArray_long
  have ha := decimal_length_pos a
  have hb := decimal_length_pos b
  have hc := decimal_length_pos c
  simp only [List.length_append, List.length_cons]
  omega

/-- C6: on `"5,6"` both decodes read `elements[2]` of a two-element vector,
and on `"10,20"` both throw; neither returns `(c0, c1, default)`. -/
theorem two_components_diverge :
    cast .range3 "5,6".toList = .ub ∧ cast .id3 "5,6".toList = .ub ∧
    parseCommaDelimitedList simple_cast_size_t "5,6".toList = [.val 5, .val 6] ∧
    cast .range3 "10,20".toList = .throws (InvalidVectorLiteral "10,20".toList) ∧
    cast .id3 "10,20".toList = .throws (InvalidVectorLiteral "10,20".toList) := by
  decide

/-- C7: a single component decodes as claimed when it has one digit (`"5"`),
but `"12"` and `"128"` make both decodes read past the one-element vector
and `"1234"` makes them throw. -/
theorem one_component_diverges :
    cast .range3 "5".toList = .ok ⟨.val 5, .val 1, .val 1⟩ ∧
    cast .id3 "5".toList = .ok ⟨.val 5, .val 0, .val 0⟩ ∧
    parseCommaDelimitedList simple_cast_size_t "128".toList = [.val 128] ∧
    cast .range3 "128".toList = .ub ∧ cast .id3 "128".toList = .ub ∧
    cast .range3 "12".toList = .ub ∧ cast .id3 "12".toList = .ub ∧
    cast .range3 "1234".toList = .throws (InvalidVectorLiteral "1234".toList) := by
  decide

/-- C8: when the comma-delimited split of `s` has no component or more than
three, the range-like and the offset-like decode both throw
`InvalidVectorLiteral`, whose text ends with `s` itself. -/
theorem invalid_component_count_throws (s : Str)
    (h : (parseCommaDelimitedList simple_cast_size_t s).length = 0 ∨
      3 < (parseCommaDelimitedList simple_cast_size_t s).length) :
    cast .range3 s = .throws (.invalid_argument ("Invalid sycl range/id: ".toList ++ s)) ∧
    cast .id3 s = .throws (.invalid_argument ("Invalid sycl range/id: ".toList ++ s)) := by
  rcases h with h | h
  · have hs := parseCommaDelimitedList_eq_nil simple_cast_size_t s h
    subst hs
    exact ⟨parseSyclArray_nil 1, parseSyclArray_nil 0⟩
  · have hlen := parseCommaDelimitedList_length_le simple_cast_size_t s
    exact ⟨parseSyclArray_long s 1 (by omega), parseSyclArray_long s 0 (by omega)⟩

/-- C8, on the raw strings `""` and `"1,2,3,4"`. -/
theorem invalid_component_count_throws_witness :
    ((parseCommaDelimitedList simple_cast_size_t "".toList).length = 0 ∧
      cast .range3 "".toList = .throws (InvalidVectorLiteral "".toList) ∧
      cast .id3 "".toList = .throws (InvalidVectorLiteral "".toList)) ∧
    ((parseCommaDelimitedList simple_cast_size_t "1,2,3,4".toList).length = 4 ∧
      cast .range3 "1,2,3,4".toList = .throws (InvalidVectorLiteral "1,2,3,4".toList) ∧
      cast .id3 "1,2,3,4".toList = .throws (InvalidVectorLiteral "1,2,3,4".toList)) :=
  ⟨⟨by decide, invalid_component_count_throws "".toList (Or.inl (by decide))⟩,
    ⟨by decide, invalid_component_count_throws "1,2,3,4".toList (Or.inr (by decide))⟩⟩

/-- C9: only the first `=` splits a token: when no keyed name is repeated,
the tokens are C strings (no NUL inside), `k` has no `=` and the token
`k=v` is present, the constructor succeeds, `isArgSet(k)` is true and
`get<std::string>(k)` returns `v` whole. -/
theorem first_equals_splits (argv : List Str) (k v : Str)
    (hnd : (keyNames argv).Nodup) (hc : ∀ tok ∈ argv, '\x00' ∉ tok)
    (hk : '=' ∉ k) (hm : (k ++ '=' :: v) ∈ argv) :
    ∃ cl, CommandLine.ctor argv = .ok cl ∧ cl.isArgSet k = true ∧
      cl.get .string k = .ok v := by
  obtain ⟨fl, h1, _⟩ := loop_ok argv ⟨[], []⟩ hnd (fun k _ => rfl)
  have hmem : (k, v) ∈ argv.filterMap keyVal :=
    List.mem_filterMap.mpr ⟨_, hm, keyVal_append k v hk⟩
  have hfind : mapFind (argv.filterMap keyVal) k = some v :=
    mapFind_of_mem _ k v hnd hmem
  have hv : '\x00' ∉ v := fun h => hc _ hm (by simp [h])
  refine ⟨_, h1, ?_, ?_⟩
  · simp [CommandLine.isArgSet, hfind]
  · simp [CommandLine.get, mapAt, hfind, Outcome.bind, cast, simple_cast_string_id v hv]

/-- C9, on the tokens `prog --a=b=c`: key `--a`, value `b=c`. -/
theorem first_equals_splits_witness :
    ∃ cl, CommandLine.ctor ["prog".toList, "--a=b=c".toList] = .ok cl ∧
      cl.isArgSet "--a".toList = true ∧ cl.get .string "--a".toList = .ok "b=c".toList :=
  first_equals_splits ["prog".toList, "--a=b=c".toList] "--a".toList "b=c".toList
    (by decide) (by decide) (by decide) (by decide)

/-- C10: decoding a string as `std::string` returns it unchanged, for every
string of the program: one without a NUL character inside, as the text of a
C string is (the empty string and strings with white space included). These
are the strings that reach the decode: every value stored by a constructed
`CommandLine` is such a string and is decoded to itself. -/
theorem cast_string_unchanged (s : Str) (h : '\x00' ∉ s) :
    cast .string s = .ok s ∧
    ∀ (argv : List Str) (cl : CommandLine), (∀ tok ∈ argv, '\x00' ∉ tok) →
      CommandLine.ctor argv = .ok cl →
      ∀ n v, mapFind cl.args n = some v → '\x00' ∉ v ∧ cast .string v = .ok v := by
  refine ⟨by simp [cast, simple_cast_string_id s h], ?_⟩
  intro argv cl hc hcl n v hv
  have hnul : '\x00' ∉ v := by
    by_cases hnd : (keyNames argv).Nodup
    · obtain ⟨fl, h1, _⟩ := loop_ok argv ⟨[], []⟩ hnd (fun k _ => rfl)
      rw [CommandLine.ctor, h1] at hcl
      simp only [List.nil_append, Outcome.ok.injEq] at hcl
      subst hcl
      obtain ⟨tok, htok, hkv⟩ := List.mem_filterMap.mp (mapFind_some_mem _ n v hv)
      obtain ⟨_, rfl⟩ := (keyVal_some_iff tok n v).mp hkv
      exact fun hin => hc _ htok (by simp [hin])
    · obtain ⟨pre, tok, k, w, post, h1, h2, h3, h4⟩ := exists_first_duplicate argv hnd
      rw [h1, ctor_first_duplicate pre post tok k w h2 h3 h4] at hcl
      exact Outcome.noConfusion hcl
  exact ⟨hnul, by simp [cast, simple_cast_string_id v hnul]⟩

/-- C10, on `" a  b "` (leading, embedded and trailing white space), on the
empty string, and on the value stored for `prog --device=my gpu `. -/
theorem cast_string_unchanged_witness :
    cast .string " a  b ".toList = .ok " a  b ".toList ∧
    cast .string "".toList = .ok "".toList ∧
    cast .string "my gpu ".toList = .ok "my gpu ".toList :=
  ⟨(cast_string_unchanged " a  b ".toList (by decide)).1,
    (cast_string_unchanged "".toList (by decide)).1,
    ((cast_string_unchanged "".toList (by decide)).2
      ["prog".toList, "--device=my gpu ".toList]
      ⟨[("--device".toList, "my gpu ".toList)], ["prog".toList]⟩
      (by decide) (by decide) "--device".toList "my gpu ".toList (by decide)).2⟩

/-- C11: when no keyed name is repeated and the token `name=<decimal text of
n>` is present, with `name` a keyed-argument name (no `=` inside) and `n`
at most `SIZE_MAX`, `get<size_t>(name)` returns `n` and so does
`getOrDefault<size_t>(name, d)` for every `d`; and on
`prog --size=128 --local=32 --no-verification` the accessors answer as in
the scenario. -/
theorem get_size_decimal (argv : List Str) (name : Str) (n : Nat)
    (hnd : (keyNames argv).Nodup) (hname : '=' ∉ name) (hn : n ≤ SIZE_MAX)
    (hm : (name ++ '=' :: decimal n) ∈ argv) :
    (∃ cl, CommandLine.ctor argv = .ok cl ∧ cl.get .size_t name = .ok (.val n) ∧
      ∀ d, cl.getOrDefault .size_t name d = .ok (.val n)) ∧
    (∃ cl, CommandLine.ctor ["prog".toList, "--size=128".toList, "--local=32".toList,
        "--no-verification".toList] = .ok cl ∧
      cl.isArgSet "--size".toList = true ∧
      cl.get .size_t "--size".toList = .ok (.val 128) ∧
      cl.isFlagSet "--no-verification".toList = true ∧
      cl.isArgSet "--num-runs".toList = false ∧
      cl.getOrDefault .size_t "--num-runs".toList (.val 5) = .ok (.val 5)) := by
  constructor
  · obtain ⟨fl, h1, _⟩ := loop_ok argv ⟨[], []⟩ hnd (fun k _ => rfl)
    have hmem : (name, decimal n) ∈ argv.filterMap keyVal :=
      List.mem_filterMap.mpr ⟨_, hm, keyVal_append name (decimal n) hname⟩
    have hfind : mapFind (argv.filterMap keyVal) name = some (decimal n) :=
      mapFind_of_mem _ name (decimal n) hnd hmem
    obtain ⟨hdig, hval⟩ := decimal_spec n
    have hne : decimal n ≠ [] := by
      intro h0
      have := decimal_length_pos n
      simp [h0] at this
    have hdec : simple_cast_size_t (decimal n) = .val n := by
      have := extract_digit_run (decimal n) [] hne hdig (by simp) (by omega)
      simpa [simple_cast_size_t, hval] using this
    refine ⟨_, h1, ?_, ?_⟩
    · simp [CommandLine.get, mapAt, hfind, Outcome.bind, cast, hdec]
    · intro d
      simp [CommandLine.getOrDefault, CommandLine.isArgSet, mapAt, hfind, Outcome.bind, cast,
        hdec]
  · exact ⟨⟨[("--size".toList, "128".toList), ("--local".toList, "32".toList)],
      ["prog".toList, "--no-verification".toList]⟩, by decide, by decide, by decide, by decide,
      by decide, by decide⟩

/-- C11, on the tokens `prog --size=128 --local=32 --no-verification`, the
name `--size` and `n = 128`. -/
theorem get_size_decimal_witness :
    ∃ cl, CommandLine.ctor ["prog".toList, "--size=128".toList, "--local=32".toList,
        "--no-verification".toList] = .ok cl ∧
      cl.get .size_t "--size".toList = .ok (.val 128) ∧
      ∀ d, cl.getOrDefault .size_t "--size".toList d = .ok (.val 128) :=
  (get_size_decimal ["prog".toList, "--size=128".toList, "--local=32".toList,
    "--no-verification".toList] "--size".toList 128 (by decide) (by decide) (by decide)
    (by decide)).1

/-- C12: the decision follows the character count, not the component
count: `"5"` and `"1234"` both have one component, yet the first decodes and
the second throws `InvalidVectorLiteral`; `"12"` reads out of bounds; and
of the two-component strings `"5,6"` reads out of bounds while `"10,20"`
throws. -/
theorem decision_depends_on_length :
    (parseCommaDelimitedList simple_cast_size_t "5".toList).length = 1 ∧
    (parseCommaDelimitedList simple_cast_size_t "1234".toList).length = 1 ∧
    cast .range3 "5".toList = .ok ⟨.val 5, .val 1, .val 1⟩ ∧
    cast .range3 "1234".toList = .throws (InvalidVectorLiteral "1234".toList) ∧
    cast .range3 "12".toList = .ub ∧
    (parseCommaDelimitedList simple_cast_size_t "5,6".toList).length = 2 ∧
    (parseCommaDelimitedList simple_cast_size_t "10,20".toList).length = 2 ∧
    cast .range3 "5,6".toList = .ub ∧
    cast .range3 "10,20".toList = .throws (InvalidVectorLiteral "10,20".toList) := by
  decide

/-- C13: the constructor throws exactly when the tokens split as
`pre ++ tok :: post` where no key is repeated within `pre` and the key of
`tok` already occurs in `pre`; the exception is then `DuplicateArgument`
of that key, the first duplicate in token order. -/
theorem first_duplicate_reported (argv : List Str) (e : Exn) :
    CommandLine.ctor argv = .throws e ↔
      ∃ pre tok k v post, argv = pre ++ tok :: post ∧ (keyNames pre).Nodup ∧
        keyVal tok = some (k, v) ∧ k ∈ keyNames pre ∧ e = DuplicateArgument k := by
  constructor
  · intro h
    by_cases hnd : (keyNames argv).Nodup
    · obtain ⟨fl, h1, _⟩ := loop_ok argv ⟨[], []⟩ hnd (fun k _ => rfl)
      rw [CommandLine.ctor, h1] at h
      exact Outcome.noConfusion h
    · obtain ⟨pre, tok, k, v, post, h1, h2, h3, h4⟩ := exists_first_duplicate argv hnd
      refine ⟨pre, tok, k, v, post, h1, h2, h3, h4, ?_⟩
      have hthrow := ctor_first_duplicate pre post tok k v h2 h3 h4
      rw [← h1, h] at hthrow
      simpa using hthrow
  · rintro ⟨pre, tok, k, v, post, rfl, h2, h3, h4, rfl⟩
    exact ctor_first_duplicate pre post tok k v h2 h3 h4

/-- C13, on the tokens `--a=1 --b=1 --b=2 --a=2`: the error names `--b`. -/
theorem first_duplicate_reported_witness :
    CommandLine.ctor ["--a=1".toList, "--b=1".toList, "--b=2".toList, "--a=2".toList]
      = .throws (DuplicateArgument "--b".toList) :=
  (first_duplicate_reported
    ["--a=1".toList, "--b=1".toList, "--b=2".toList, "--a=2".toList]
    (DuplicateArgument "--b".toList)).mpr
    ⟨["--a=1".toList, "--b=1".toList], "--b=2".toList, "--b".toList, "2".toList,
      ["--a=2".toList], by decide, by decide, by decide, by decide, rfl⟩

/-- C14: on a constructed `CommandLine`, when the map holds the raw value `v`
for `n`, `get<T>(n)` and `getOrDefault<T>(n, d)` both end exactly as
`cast<T>(v)` does, and an exception of that decode is
`InvalidVectorLiteral(v)`. -/
theorem get_and_getOrDefault_decode (argv : List Str) (cl : CommandLine)
    (_hcl : CommandLine.ctor argv = .ok cl) (T : Ty) (n v : Str) (d : T.denote)
    (hv : mapFind cl.args n = some v) :
    cl.get T n = cast T v ∧ cl.getOrDefault T n d = cast T v ∧
      ∀ e, cast T v = .throws e → e = InvalidVectorLiteral v := by
  refine ⟨?_, ?_, fun e he => cast_throws T v e he⟩
  · unfold CommandLine.get mapAt
    simp only [hv, Outcome.bind]
    cases hc : cast T v with
    | ok a => rfl
    | ub => rfl
    | throws e =>
      have he := cast_throws T v e hc
      subst he
      rfl
  · simp [CommandLine.getOrDefault, CommandLine.isArgSet, mapAt, hv, Outcome.bind]

/-- C14, on the tokens `prog --r=1,2,3,4`, the name `--r` and the range-like
type: both accessors throw `InvalidVectorLiteral("1,2,3,4")`. -/
theorem get_and_getOrDefault_decode_witness :
    (CommandLine.mk [("--r".toList, "1,2,3,4".toList)] ["prog".toList]).get .range3
        "--r".toList = .throws (InvalidVectorLiteral "1,2,3,4".toList) ∧
    (CommandLine.mk [("--r".toList, "1,2,3,4".toList)] ["prog".toList]).getOrDefault .range3
        "--r".toList ⟨.val 1, .val 1, .val 1⟩
      = .throws (InvalidVectorLiteral "1,2,3,4".toList) :=
  have h := get_and_getOrDefault_decode ["prog".toList, "--r=1,2,3,4".toList]
    ⟨[("--r".toList, "1,2,3,4".toList)], ["prog".toList]⟩ (by decide) .range3 "--r".toList
    "1,2,3,4".toList ⟨.val 1, .val 1, .val 1⟩ (by decide)
  ⟨h.1.trans (by decide), h.2.1.trans (by decide)⟩

/-- C15: for a token sequence and a permutation of it: when no keyed name is
repeated both constructions succeed and answer `isArgSet`, `isFlagSet` and
`get<T>` alike for every name (in particular `get<std::string>`); when a
name is repeated both throw `DuplicateArgument`. -/
theorem token_order_irrelevant (argv argv2 : List Str) (hp : argv.Perm argv2) :
    ((keyNames argv).Nodup →
      ∃ cl cl2, CommandLine.ctor argv = .ok cl ∧ CommandLine.ctor argv2 = .ok cl2 ∧
        ∀ n, cl.isArgSet n = cl2.isArgSet n ∧ cl.isFlagSet n = cl2.isFlagSet n ∧
          ∀ T, cl.get T n = cl2.get T n) ∧
    (¬ (keyNames argv).Nodup →
      ∃ k k2, CommandLine.ctor argv = .throws (DuplicateArgument k) ∧
        CommandLine.ctor argv2 = .throws (DuplicateArgument k2)) := by
  have hkv : (argv.filterMap keyVal).Perm (argv2.filterMap keyVal) := hp.filterMap keyVal
  have hkn : (keyNames argv).Perm (keyNames argv2) := hkv.map Prod.fst
  constructor
  · intro hnd
    have hnd2 : (keyNames argv2).Nodup := hkn.nodup_iff.mp hnd
    obtain ⟨fl, h1, hfl⟩ := loop_ok argv ⟨[], []⟩ hnd (fun k _ => rfl)
    obtain ⟨fl2, h2, hfl2⟩ := loop_ok argv2 ⟨[], []⟩ hnd2 (fun k _ => rfl)
    refine ⟨_, _, h1, h2, ?_⟩
    intro n
    have hfind : mapFind (argv.filterMap keyVal) n = mapFind (argv2.filterMap keyVal) n :=
      mapFind_perm _ _ hkv hnd n
    have hbare : n ∈ bareTokens argv ↔ n ∈ bareTokens argv2 :=
      (hp.filter _).mem_iff
    refine ⟨?_, ?_, ?_⟩
    · simp [CommandLine.isArgSet, hfind]
    · simp only [CommandLine.isFlagSet, decide_eq_decide, hfl n, hfl2 n, hbare]
    · intro T
      simp [CommandLine.get, mapAt, hfind]
  · intro hnd
    have hnd2 : ¬ (keyNames argv2).Nodup := fun h => hnd (hkn.nodup_iff.mpr h)
    obtain ⟨pre, tok, k, v, post, h1, h2, h3, h4⟩ := exists_first_duplicate argv hnd
    obtain ⟨pre2, tok2, k2, v2, post2, g1, g2, g3, g4⟩ := exists_first_duplicate argv2 hnd2
    exact ⟨k, k2, h1 ▸ ctor_first_duplicate pre post tok k v h2 h3 h4,
      g1 ▸ ctor_first_duplicate pre2 post2 tok2 k2 v2 g2 g3 g4⟩

/-- C15, on `prog --a=1 --b=2` and its permutation `--b=2 prog --a=1`. -/
theorem token_order_irrelevant_witness :
    ∃ cl cl2, CommandLine.ctor ["prog".toList, "--a=1".toList, "--b=2".toList] = .ok cl ∧
      CommandLine.ctor ["--b=2".toList, "prog".toList, "--a=1".toList] = .ok cl2 ∧
      ∀ n, cl.isArgSet n = cl2.isArgSet n ∧ cl.isFlagSet n = cl2.isFlagSet n ∧
        ∀ T, cl.get T n = cl2.get T n :=
  (token_order_irrelevant ["prog".toList, "--a=1".toList, "--b=2".toList]
    ["--b=2".toList, "prog".toList, "--a=1".toList] (by decide)).1 (by decide)

/-- C16: a string made of a non-empty run of decimal digits whose value fits
`std::size_t`, followed by nothing or by a suffix starting with a non-digit,
decodes as `std::size_t` to the value of the run, without an exception; and
`"abc"` decodes to `0`. -/
theorem tolerant_scalar_decode (ds suffix : Str) (hne : ds ≠ [])
    (hd : ∀ c ∈ ds, isdigit c = true)
    (hs : ∀ c, suffix.head? = some c → isdigit c = false)
    (hfit : Nat.ofDigits 10 ((ds.map digitVal).reverse) ≤ SIZE_MAX) :
    cast .size_t (ds ++ suffix) = .ok (.val (Nat.ofDigits 10 ((ds.map digitVal).reverse))) ∧
    cast .size_t "abc".toList = .ok (.val 0) := by
  refine ⟨?_, by decide⟩
  rw [← digitsVal_eq_ofDigits] at hfit ⊢
  simp only [cast, simple_cast_size_t]
  rw [extract_digit_run ds suffix hne hd hs hfit]

/-- C16, on `"128abc"`: digits `128`, suffix `abc`. -/
theorem tolerant_scalar_decode_witness :
    cast .size_t "128abc".toList = .ok (.val 128) :=
  (tolerant_scalar_decode "128".toList "abc".toList (by decide) (by decide) (by decide)
    (by decide)).1.trans (by decide)

/-- C17: `parseSyclArray` reads past the end of the component list: on
`"5,6"` it reads `elements[2]` of two components, on `"12"` `elements[1]`
and on `"128"` `elements[1]` of one component; on `","` every read is in
bounds. -/
theorem index_out_of_bounds :
    (parseCommaDelimitedList simple_cast_size_t "5,6".toList).length = 2 ∧
    index (parseCommaDelimitedList simple_cast_size_t "5,6".toList) 2 = .ub ∧
    parseSyclArray "5,6".toList 1 = .ub ∧ parseSyclArray "5,6".toList 0 = .ub ∧
    (parseCommaDelimitedList simple_cast_size_t "12".toList).length = 1 ∧
    index (parseCommaDelimitedList simple_cast_size_t "12".toList) 1 = .ub ∧
    parseSyclArray "12".toList 1 = .ub ∧ parseSyclArray "12".toList 0 = .ub ∧
    (parseCommaDelimitedList simple_cast_size_t "128".toList).length = 1 ∧
    index (parseCommaDelimitedList simple_cast_size_t "128".toList) 1 = .ub ∧
    parseSyclArray "128".toList 1 = .ub ∧ parseSyclArray "128".toList 0 = .ub ∧
    parseSyclArray ",".toList 1 = .ok ⟨.indeterminate, .val 1, .val 1⟩ := by
  decide

/-- C18: for a string `s` without NUL, the components returned by
`parseCommaDelimitedList<std::string>` contain no comma; the empty string
gives the empty list; when `s` ends in a comma there is one component per
comma and joining them with commas gives `s` without its final comma;
otherwise, for non-empty `s`, there is one component more than commas and
joining them with commas gives `s`. -/
theorem split_string_segments (s : Str) (h : '\x00' ∉ s) :
    (∀ x ∈ parseCommaDelimitedList simple_cast_string s, ',' ∉ x) ∧
    (s = [] → parseCommaDelimitedList simple_cast_string s = []) ∧
    (s.getLast? = some ',' →
      (parseCommaDelimitedList simple_cast_string s).length = s.count ',' ∧
      [','].intercalate (parseCommaDelimitedList simple_cast_string s) ++ [','] = s) ∧
    (s ≠ [] → s.getLast? ≠ some ',' →
      (parseCommaDelimitedList simple_cast_string s).length = s.count ',' + 1 ∧
      [','].intercalate (parseCommaDelimitedList simple_cast_string s) = s) := by
  rw [split_string s h]
  have hlen := split_length s
  have hjoin := split_join s
  refine ⟨fun x hx => (split_mem s x hx).1, ?_, ?_, ?_⟩
  · rintro rfl
    exact split_nil _
  · intro hlast
    simp only [hlast, or_true, if_true] at hlen hjoin
    exact ⟨by simpa using hlen, hjoin⟩
  · intro hne hlast
    simp only [hne, hlast, or_self, if_false] at hlen hjoin
    exact ⟨hlen, by simpa using hjoin⟩

/-- C18, on `"a,,b,"`: three commas, components `a`, the empty string and
`b`. -/
theorem split_string_segments_witness :
    parseCommaDelimitedList simple_cast_string "a,,b,".toList
      = ["a".toList, "".toList, "b".toList] ∧
    (parseCommaDelimitedList simple_cast_string "a,,b,".toList).length
      = "a,,b,".toList.count ',' ∧
    [','].intercalate (parseCommaDelimitedList simple_cast_string "a,,b,".toList) ++ [',']
      = "a,,b,".toList :=
  ⟨by decide,
    ((split_string_segments "a,,b,".toList (by decide)).2.2.1 (by decide)).1,
    ((split_string_segments "a,,b,".toList (by decide)).2.2.1 (by decide)).2⟩

end SyclBench
